import Mathlib

/-!
# Verification of the go-oprf cryptographic core

This file formalises the OPRF / threshold-OPRF / DKG core of the `go-oprf`
repository (packages `oprf`, `toprf`, `dkg`) as a shallow embedding in Lean 4
and proves (or refutes) the specification claims about it.

Two embeddings are used, reflecting the layering of the source:

* an **algebraic model**: the external ristretto255 group library (out of scope
  for the repository, per its spec) provides a prime-order group of order
  `L = 2^252 + 27742317777372353535851937790883648493` together with a scalar
  field `ZMod L`.  Since the group is cyclic of prime order `L`, it is
  isomorphic to the additive group `ZMod L`, with the base point `g` mapped to
  `1`, point addition to `+`, and scalar multiplication to `*`.  The functions
  of `oprf.go`, `toprf.go` and `dkg.go` are translated over this model.

* a **byte-level model**: an exact executable translation of SHA-512,
  ristretto255 (field arithmetic mod `2^255-19`, Edwards point arithmetic,
  the RFC 9496 encode/decode and one-way map) and the byte-oriented functions
  of `oprf.go` and `toprf.go`, used to check the concrete test-vector claims
  and the error-handling behaviour on raw byte inputs.

The scalar-field order `L` is proved prime via Lucas/Pratt certificates so
that `ZMod L` is a field (matching the mathematical facts the library relies
on).
-/

set_option maxRecDepth 40000

/-- The order of the ristretto255 group: `2^252 + 27742317777372353535851937790883648493`. -/
def L : ℕ := 7237005577332262213973186563042994240857116359379907606001950938285454250989

/-- Binary modular exponentiation `a ^ b % n`, structurally recursive on a fuel
argument so that the kernel can evaluate it.  This is also how the underlying
scalar library implements `Invert` (Fermat exponentiation). -/
def powMod : ℕ → ℕ → ℕ → ℕ → ℕ
  | 0, _, _, n => 1 % n
  | fuel + 1, a, b, n =>
    if b = 0 then 1 % n
    else
      let h := powMod fuel a (b / 2) n
      if b % 2 = 1 then h * h % n * (a % n) % n else h * h % n

theorem powMod_eq : ∀ fuel a b n : ℕ, b < 2 ^ fuel → powMod fuel a b n = a ^ b % n := by
  intro fuel
  induction fuel with
  | zero =>
    intro a b n hb
    have : b = 0 := by omega
    subst this
    simp [powMod]
  | succ f ih =>
    intro a b n hb
    by_cases hb0 : b = 0
    · subst hb0; simp [powMod]
    · have hdiv : b / 2 < 2 ^ f := by
        have : 2 ^ (f + 1) = 2 ^ f * 2 := by ring
        omega
      have hrec := ih a (b / 2) n hdiv
      have hsplit : a ^ b = a ^ (b / 2) * a ^ (b / 2) * a ^ (b % 2) := by
        rw [← pow_add, ← pow_add]
        congr 1
        omega
      rcases Nat.mod_two_eq_zero_or_one b with hpar | hpar
      · have heq : a ^ b = a ^ (b / 2) * a ^ (b / 2) := by
          rw [hsplit, hpar, pow_zero, mul_one]
        simp only [powMod, hb0, if_false, hpar]
        rw [if_neg (by omega), hrec, heq, ← Nat.mul_mod]
      · have heq : a ^ b = a ^ (b / 2) * a ^ (b / 2) * a := by
          rw [hsplit, hpar, pow_one]
        simp only [powMod, hb0, if_false, hpar, if_true]
        rw [hrec, heq,
          Nat.mul_mod (a ^ (b / 2) * a ^ (b / 2)) a n,
          Nat.mul_mod (a ^ (b / 2)) (a ^ (b / 2)) n]

theorem powMod_lt (fuel a b n : ℕ) (hn : 0 < n) : powMod fuel a b n < n := by
  cases fuel with
  | zero => exact Nat.mod_lt _ hn
  | succ f =>
    simp only [powMod]
    split
    · exact Nat.mod_lt _ hn
    · split
      · exact Nat.mod_lt _ hn
      · exact Nat.mod_lt _ hn

theorem cast_powMod (p a b : ℕ) (hb : b < 2 ^ 300) :
    ((powMod 300 a b p : ℕ) : ZMod p) = (a : ZMod p) ^ b := by
  rw [powMod_eq 300 a b p hb, ZMod.natCast_mod, Nat.cast_pow]

theorem pow_eq_one_of_powMod (p a b : ℕ) (hb : b < 2 ^ 300)
    (h : powMod 300 a b p = 1 % p) : (a : ZMod p) ^ b = 1 := by
  have hc := cast_powMod p a b hb
  rw [h] at hc
  rw [← hc, ZMod.natCast_mod, Nat.cast_one]

theorem pow_ne_one_of_powMod (p a b : ℕ) (hb : b < 2 ^ 300) (hp : 1 < p)
    (h : powMod 300 a b p ≠ 1) : (a : ZMod p) ^ b ≠ 1 := by
  intro hcontra
  apply h
  have hc := cast_powMod p a b hb
  rw [hcontra] at hc
  have hlt : powMod 300 a b p < p := powMod_lt 300 a b p (by omega)
  have hval := ZMod.val_cast_of_lt hlt
  rw [hc] at hval
  have hone : (1 : ZMod p).val = 1 := by
    rw [ZMod.val_one_eq_one_mod]
    exact Nat.mod_eq_of_lt hp
  rw [hone] at hval
  exact hval.symm

/-- Pratt/Lucas certificate checker: if `fs` is a list of primes whose product is
`p - 1`, `a ^ (p-1) = 1` in `ZMod p`, and `a ^ ((p-1)/q) ≠ 1` for each `q ∈ fs`,
then `p` is prime. -/
theorem pratt_cert (p a : ℕ) (fs : List ℕ)
    (hprod : fs.prod = p - 1)
    (hfs : ∀ q ∈ fs, q.Prime)
    (ha : (a : ZMod p) ^ (p - 1) = 1)
    (hq : ∀ q ∈ fs, (a : ZMod p) ^ ((p - 1) / q) ≠ 1) : p.Prime := by
  apply lucas_primality p a ha
  intro q hqp hdvd
  rw [← hprod] at hdvd
  obtain ⟨x, hx, hdx⟩ := (hqp.prime.dvd_prod_iff).mp hdvd
  have hxq : q = x := (Nat.prime_dvd_prime_iff_eq hqp (hfs x hx)).mp hdx
  subst hxq
  exact hq q hx

theorem prime_292386187 : Nat.Prime 292386187 := by
  apply pratt_cert 292386187 2 [2, 3, 3, 3, 3, 307, 5879]
  · decide
  · intro q hqmem
    simp only [List.mem_cons, List.mem_nil_iff, or_false] at hqmem
    rcases hqmem with rfl | rfl | rfl | rfl | rfl | rfl | rfl
    · norm_num
    · norm_num
    · norm_num
    · norm_num
    · norm_num
    · norm_num
    · norm_num
  · exact pow_eq_one_of_powMod _ _ _ (by decide) (by decide)
  · intro q hqmem
    simp only [List.mem_cons, List.mem_nil_iff, or_false] at hqmem
    rcases hqmem with rfl | rfl | rfl | rfl | rfl | rfl | rfl
    · exact pow_ne_one_of_powMod _ _ _ (by decide) (by decide) (by decide)
    · exact pow_ne_one_of_powMod _ _ _ (by decide) (by decide) (by decide)
    · exact pow_ne_one_of_powMod _ _ _ (by decide) (by decide) (by decide)
    · exact pow_ne_one_of_powMod _ _ _ (by decide) (by decide) (by decide)
    · exact pow_ne_one_of_powMod _ _ _ (by decide) (by decide) (by decide)
    · exact pow_ne_one_of_powMod _ _ _ (by decide) (by decide) (by decide)
    · exact pow_ne_one_of_powMod _ _ _ (by decide) (by decide) (by decide)

theorem prime_58964693 : Nat.Prime 58964693 := by
  apply pratt_cert 58964693 2 [2, 2, 14741173]
  · decide
  · intro q hqmem
    simp only [List.mem_cons, List.mem_nil_iff, or_false] at hqmem
    rcases hqmem with rfl | rfl | rfl
    · norm_num
    · norm_num
    · norm_num
  · exact pow_eq_one_of_powMod _ _ _ (by decide) (by decide)
  · intro q hqmem
    simp only [List.mem_cons, List.mem_nil_iff, or_false] at hqmem
    rcases hqmem with rfl | rfl | rfl
    · exact pow_ne_one_of_powMod _ _ _ (by decide) (by decide) (by decide)
    · exact pow_ne_one_of_powMod _ _ _ (by decide) (by decide) (by decide)
    · exact pow_ne_one_of_powMod _ _ _ (by decide) (by decide) (by decide)

theorem prime_1257559732178653 : Nat.Prime 1257559732178653 := by
  apply pratt_cert 1257559732178653 2 [2, 2, 3, 7, 23, 531581, 1224481]
  · decide
  · intro q hqmem
    simp only [List.mem_cons, List.mem_nil_iff, or_false] at hqmem
    rcases hqmem with rfl | rfl | rfl | rfl | rfl | rfl | rfl
    · norm_num
    · norm_num
    · norm_num
    · norm_num
    · norm_num
    · norm_num
    · norm_num
  · exact pow_eq_one_of_powMod _ _ _ (by decide) (by decide)
  · intro q hqmem
    simp only [List.mem_cons, List.mem_nil_iff, or_false] at hqmem
    rcases hqmem with rfl | rfl | rfl | rfl | rfl | rfl | rfl
    · exact pow_ne_one_of_powMod _ _ _ (by decide) (by decide) (by decide)
    · exact pow_ne_one_of_powMod _ _ _ (by decide) (by decide) (by decide)
    · exact pow_ne_one_of_powMod _ _ _ (by decide) (by decide) (by decide)
    · exact pow_ne_one_of_powMod _ _ _ (by decide) (by decide) (by decide)
    · exact pow_ne_one_of_powMod _ _ _ (by decide) (by decide) (by decide)
    · exact pow_ne_one_of_powMod _ _ _ (by decide) (by decide) (by decide)
    · exact pow_ne_one_of_powMod _ _ _ (by decide) (by decide) (by decide)

theorem prime_4434155615661930479 : Nat.Prime 4434155615661930479 := by
  apply pratt_cert 4434155615661930479 17 [2, 41, 43, 1257559732178653]
  · decide
  · intro q hqmem
    simp only [List.mem_cons, List.mem_nil_iff, or_false] at hqmem
    rcases hqmem with rfl | rfl | rfl | rfl
    · norm_num
    · norm_num
    · norm_num
    · exact prime_1257559732178653
  · exact pow_eq_one_of_powMod _ _ _ (by decide) (by decide)
  · intro q hqmem
    simp only [List.mem_cons, List.mem_nil_iff, or_false] at hqmem
    rcases hqmem with rfl | rfl | rfl | rfl
    · exact pow_ne_one_of_powMod _ _ _ (by decide) (by decide) (by decide)
    · exact pow_ne_one_of_powMod _ _ _ (by decide) (by decide) (by decide)
    · exact pow_ne_one_of_powMod _ _ _ (by decide) (by decide) (by decide)
    · exact pow_ne_one_of_powMod _ _ _ (by decide) (by decide) (by decide)

theorem prime_213441916511 : Nat.Prime 213441916511 := by
  apply pratt_cert 213441916511 13 [2, 5, 73, 292386187]
  · decide
  · intro q hqmem
    simp only [List.mem_cons, List.mem_nil_iff, or_false] at hqmem
    rcases hqmem with rfl | rfl | rfl | rfl
    · norm_num
    · norm_num
    · norm_num
    · exact prime_292386187
  · exact pow_eq_one_of_powMod _ _ _ (by decide) (by decide)
  · intro q hqmem
    simp only [List.mem_cons, List.mem_nil_iff, or_false] at hqmem
    rcases hqmem with rfl | rfl | rfl | rfl
    · exact pow_ne_one_of_powMod _ _ _ (by decide) (by decide) (by decide)
    · exact pow_ne_one_of_powMod _ _ _ (by decide) (by decide) (by decide)
    · exact pow_ne_one_of_powMod _ _ _ (by decide) (by decide) (by decide)
    · exact pow_ne_one_of_powMod _ _ _ (by decide) (by decide) (by decide)

theorem prime_172054593956031949258510691 : Nat.Prime 172054593956031949258510691 := by
  apply pratt_cert 172054593956031949258510691 2 [2, 5, 1361, 2851, 4434155615661930479]
  · decide
  · intro q hqmem
    simp only [List.mem_cons, List.mem_nil_iff, or_false] at hqmem
    rcases hqmem with rfl | rfl | rfl | rfl | rfl
    · norm_num
    · norm_num
    · norm_num
    · norm_num
    · exact prime_4434155615661930479
  · exact pow_eq_one_of_powMod _ _ _ (by decide) (by decide)
  · intro q hqmem
    simp only [List.mem_cons, List.mem_nil_iff, or_false] at hqmem
    rcases hqmem with rfl | rfl | rfl | rfl | rfl
    · exact pow_ne_one_of_powMod _ _ _ (by decide) (by decide) (by decide)
    · exact pow_ne_one_of_powMod _ _ _ (by decide) (by decide) (by decide)
    · exact pow_ne_one_of_powMod _ _ _ (by decide) (by decide) (by decide)
    · exact pow_ne_one_of_powMod _ _ _ (by decide) (by decide) (by decide)
    · exact pow_ne_one_of_powMod _ _ _ (by decide) (by decide) (by decide)

theorem prime_3044861653679985063343 : Nat.Prime 3044861653679985063343 := by
  apply pratt_cert 3044861653679985063343 5 [2, 3, 11, 30703, 82163, 132667, 137849]
  · decide
  · intro q hqmem
    simp only [List.mem_cons, List.mem_nil_iff, or_false] at hqmem
    rcases hqmem with rfl | rfl | rfl | rfl | rfl | rfl | rfl
    · norm_num
    · norm_num
    · norm_num
    · norm_num
    · norm_num
    · norm_num
    · norm_num
  · exact pow_eq_one_of_powMod _ _ _ (by decide) (by decide)
  · intro q hqmem
    simp only [List.mem_cons, List.mem_nil_iff, or_false] at hqmem
    rcases hqmem with rfl | rfl | rfl | rfl | rfl | rfl | rfl
    · exact pow_ne_one_of_powMod _ _ _ (by decide) (by decide) (by decide)
    · exact pow_ne_one_of_powMod _ _ _ (by decide) (by decide) (by decide)
    · exact pow_ne_one_of_powMod _ _ _ (by decide) (by decide) (by decide)
    · exact pow_ne_one_of_powMod _ _ _ (by decide) (by decide) (by decide)
    · exact pow_ne_one_of_powMod _ _ _ (by decide) (by decide) (by decide)
    · exact pow_ne_one_of_powMod _ _ _ (by decide) (by decide) (by decide)
    · exact pow_ne_one_of_powMod _ _ _ (by decide) (by decide) (by decide)

theorem prime_19757330305831588566944191468367130476339 : Nat.Prime 19757330305831588566944191468367130476339 := by
  apply pratt_cert 19757330305831588566944191468367130476339 2 [2, 269, 213441916511, 172054593956031949258510691]
  · decide
  · intro q hqmem
    simp only [List.mem_cons, List.mem_nil_iff, or_false] at hqmem
    rcases hqmem with rfl | rfl | rfl | rfl
    · norm_num
    · norm_num
    · exact prime_213441916511
    · exact prime_172054593956031949258510691
  · exact pow_eq_one_of_powMod _ _ _ (by decide) (by decide)
  · intro q hqmem
    simp only [List.mem_cons, List.mem_nil_iff, or_false] at hqmem
    rcases hqmem with rfl | rfl | rfl | rfl
    · exact pow_ne_one_of_powMod _ _ _ (by decide) (by decide) (by decide)
    · exact pow_ne_one_of_powMod _ _ _ (by decide) (by decide) (by decide)
    · exact pow_ne_one_of_powMod _ _ _ (by decide) (by decide) (by decide)
    · exact pow_ne_one_of_powMod _ _ _ (by decide) (by decide) (by decide)

theorem prime_198211423230930754013084525763697 : Nat.Prime 198211423230930754013084525763697 := by
  apply pratt_cert 198211423230930754013084525763697 5 [2, 2, 2, 2, 3, 23, 58964693, 3044861653679985063343]
  · decide
  · intro q hqmem
    simp only [List.mem_cons, List.mem_nil_iff, or_false] at hqmem
    rcases hqmem with rfl | rfl | rfl | rfl | rfl | rfl | rfl | rfl
    · norm_num
    · norm_num
    · norm_num
    · norm_num
    · norm_num
    · norm_num
    · exact prime_58964693
    · exact prime_3044861653679985063343
  · exact pow_eq_one_of_powMod _ _ _ (by decide) (by decide)
  · intro q hqmem
    simp only [List.mem_cons, List.mem_nil_iff, or_false] at hqmem
    rcases hqmem with rfl | rfl | rfl | rfl | rfl | rfl | rfl | rfl
    · exact pow_ne_one_of_powMod _ _ _ (by decide) (by decide) (by decide)
    · exact pow_ne_one_of_powMod _ _ _ (by decide) (by decide) (by decide)
    · exact pow_ne_one_of_powMod _ _ _ (by decide) (by decide) (by decide)
    · exact pow_ne_one_of_powMod _ _ _ (by decide) (by decide) (by decide)
    · exact pow_ne_one_of_powMod _ _ _ (by decide) (by decide) (by decide)
    · exact pow_ne_one_of_powMod _ _ _ (by decide) (by decide) (by decide)
    · exact pow_ne_one_of_powMod _ _ _ (by decide) (by decide) (by decide)
    · exact pow_ne_one_of_powMod _ _ _ (by decide) (by decide) (by decide)

theorem prime_276602624281642239937218680557139826668747 : Nat.Prime 276602624281642239937218680557139826668747 := by
  apply pratt_cert 276602624281642239937218680557139826668747 2 [2, 7, 19757330305831588566944191468367130476339]
  · decide
  · intro q hqmem
    simp only [List.mem_cons, List.mem_nil_iff, or_false] at hqmem
    rcases hqmem with rfl | rfl | rfl
    · norm_num
    · norm_num
    · exact prime_19757330305831588566944191468367130476339
  · exact pow_eq_one_of_powMod _ _ _ (by decide) (by decide)
  · intro q hqmem
    simp only [List.mem_cons, List.mem_nil_iff, or_false] at hqmem
    rcases hqmem with rfl | rfl | rfl
    · exact pow_ne_one_of_powMod _ _ _ (by decide) (by decide) (by decide)
    · exact pow_ne_one_of_powMod _ _ _ (by decide) (by decide) (by decide)
    · exact pow_ne_one_of_powMod _ _ _ (by decide) (by decide) (by decide)

theorem prime_7237005577332262213973186563042994240857116359379907606001950938285454250989 : Nat.Prime 7237005577332262213973186563042994240857116359379907606001950938285454250989 := by
  apply pratt_cert 7237005577332262213973186563042994240857116359379907606001950938285454250989 2 [2, 2, 3, 11, 198211423230930754013084525763697, 276602624281642239937218680557139826668747]
  · decide
  · intro q hqmem
    simp only [List.mem_cons, List.mem_nil_iff, or_false] at hqmem
    rcases hqmem with rfl | rfl | rfl | rfl | rfl | rfl
    · norm_num
    · norm_num
    · norm_num
    · norm_num
    · exact prime_198211423230930754013084525763697
    · exact prime_276602624281642239937218680557139826668747
  · exact pow_eq_one_of_powMod _ _ _ (by decide) (by decide)
  · intro q hqmem
    simp only [List.mem_cons, List.mem_nil_iff, or_false] at hqmem
    rcases hqmem with rfl | rfl | rfl | rfl | rfl | rfl
    · exact pow_ne_one_of_powMod _ _ _ (by decide) (by decide) (by decide)
    · exact pow_ne_one_of_powMod _ _ _ (by decide) (by decide) (by decide)
    · exact pow_ne_one_of_powMod _ _ _ (by decide) (by decide) (by decide)
    · exact pow_ne_one_of_powMod _ _ _ (by decide) (by decide) (by decide)
    · exact pow_ne_one_of_powMod _ _ _ (by decide) (by decide) (by decide)
    · exact pow_ne_one_of_powMod _ _ _ (by decide) (by decide) (by decide)


theorem L_prime : Nat.Prime L :=
  prime_7237005577332262213973186563042994240857116359379907606001950938285454250989

instance : Fact (Nat.Prime L) := ⟨L_prime⟩

/-!
## Algebraic model

The ristretto255 group library (`github.com/gtank/ristretto255`) is external
to the repository.  It provides a cyclic group of prime order `L` and its
scalar field.  In this model:

* `Scalar` is `ZMod L` (canonical 32-byte little-endian encodings of values
  `< L`; `Scalar.Decode` accepts exactly these, `Add`/`Subtract`/`Multiply`
  are field operations, `Invert` is Fermat exponentiation `t ^ (L-2)`, which
  equals `·⁻¹` in the field `ZMod L`, including `Invert 0 = 0`);
* `GroupElt` is the group written additively as `ZMod L` via the isomorphism
  sending the base point `g` to `1`: `Element.Add` is `+`,
  `Element.ScalarMult s P` is `s * P`, `Element.ScalarBaseMult s` is `s * 1`,
  and `NewElement()` (the identity) is `0`.  Element encoding is injective,
  so constant-time equality of encodings is equality in the model.
-/

/-- Scalars of the ristretto255 scalar field. -/
abbrev Scalar := ZMod L

/-- Group elements of the ristretto255 group, written additively via the
isomorphism with `ZMod L` that sends the base point to `1`. -/
abbrev GroupElt := ZMod L

/-- The library's constant-time `Scalar.Invert` is Fermat exponentiation
`t ^ (L - 2)`; in the field `ZMod L` this is exactly `·⁻¹` (also at `0`). -/
theorem scalar_invert_eq_inv (t : Scalar) : t ^ (L - 2) = t⁻¹ := by
  rcases eq_or_ne t 0 with rfl | h
  · rw [inv_zero]
    exact zero_pow (by decide)
  · have h1 : t ^ (L - 1) = 1 := ZMod.pow_card_sub_one_eq_one h
    have h2 : t ^ (L - 2) * t = t ^ (L - 1) := by
      rw [← pow_succ]
      congr 1
    have h3 := congrArg (· * t⁻¹) h2
    simpa [mul_assoc, mul_inv_cancel₀ h, h1] using h3

/-- Boolean success test for `Except` results. -/
def isOk {ε α : Type} : Except ε α → Bool
  | .ok _ => true
  | .error _ => false

namespace toprfA

/-- `scalarFromUint8` from `toprf.go`: the byte is written into position 0 of
the canonical little-endian encoding and decoded, i.e. the scalar equals the
numeric value of the byte.  Go's `uint8` index type keeps arguments `< 256`;
theorems carry that bound as a hypothesis where it matters. -/
def scalarFromUint8 (v : ℕ) : Scalar := (v : Scalar)

/-- `lcoeff` from `toprf.go`.  The loop over `peers` skips `peer == index` and
accumulates `dividend *= (peer - x)` and `divisor *= (peer - index)`
(the library's `Scalar.Subtract(x, y)` computes `x - y`); the result is
`dividend * divisor⁻¹` (`Invert` is field inversion, `scalar_invert_eq_inv`). -/
def lcoeff (index x : ℕ) (peers : List ℕ) : Scalar :=
  let others := peers.filter (fun p => p ≠ index)
  let dividend := (others.map (fun p => scalarFromUint8 p - scalarFromUint8 x)).prod
  let divisor := (others.map (fun p => scalarFromUint8 p - scalarFromUint8 index)).prod
  dividend * divisor⁻¹

/-- `coeff` from `toprf.go`: the Lagrange coefficient for `f(0)`. -/
def coeff (index : ℕ) (peers : List ℕ) : Scalar := lcoeff index 0 peers

/-- `Share` from `toprf.go` (`Index uint8`, `Value *ristretto255.Scalar`). -/
structure Share where
  index : ℕ
  value : Scalar
deriving DecidableEq

/-- `InterpolateScalar` from `toprf.go`: errors on an empty share list, else
sums `lcoeff(share.Index, x, indexes) * share.Value` over the shares, where
`indexes` collects the indexes of all given shares. -/
def InterpolateScalar (x : ℕ) (shares : List Share) : Except String Scalar :=
  if shares.isEmpty then .error "toprf: no shares provided"
  else
    let indexes := shares.map (·.index)
    .ok ((shares.map (fun sh => lcoeff sh.index x indexes * sh.value)).sum)

/-- The polynomial evaluation inside `CreateShares`: starting from `secret`,
the loop `j = 0 .. t1-1` adds `coeffs[j] * x^(j+1)` (the source multiplies
`coeffs[j]` by `x` once and then `j` more times). -/
def polyEval (secret : Scalar) (coeffs : List Scalar) (t1 : ℕ) (i : ℕ) : Scalar :=
  secret + ((List.range t1).map
    (fun j => coeffs.getD j 0 * scalarFromUint8 i ^ (j + 1))).sum

/-- `CreateShares` from `toprf.go`.  The `threshold - 1` random polynomial
coefficients drawn by `rand.Read`/`FromUniformBytes` are modelled by the
explicit argument `coeffs`.  The source validates
`threshold < 1 || n < threshold` (and then a redundant `threshold > n`)
before sampling, so the error behaviour does not depend on `coeffs`. -/
def CreateShares (secret : Scalar) (n threshold : ℕ) (coeffs : List Scalar) :
    Except String (List Share) :=
  if threshold < 1 ∨ n < threshold then
    .error "toprf: invalid threshold parameters"
  else if threshold > n then
    .error "toprf: threshold cannot exceed n"
  else
    .ok ((List.range n).map (fun k => ⟨k + 1, polyEval secret coeffs (threshold - 1) (k + 1)⟩))

/-- `Part` from `toprf.go` (`Index uint8`, `Element *ristretto255.Element`).
The 33-byte wire form `index ‖ element` of `MarshalBinary`/`UnmarshalBinary`
is a bijection on valid parts, so parts are passed directly in this model. -/
structure Part where
  index : ℕ
  element : GroupElt
deriving DecidableEq

/-- `Evaluate` from `toprf.go` (threshold, pre-baked coefficient variant):
computes `c = coeff(share.Index, indexes)`, `adjustedKey = share.Value * c`,
decodes the blinded element and returns the part
`(share.Index, adjustedKey · α)`.  In the algebraic model `blinded` is
already a group element (the byte-level model covers the length/decoding
checks). -/
def Evaluate (share : Share) (blinded : GroupElt) (indexes : List ℕ) : Part :=
  let c := coeff share.index indexes
  let adjustedKey := share.value * c
  ⟨share.index, adjustedKey * blinded⟩

/-- Default part used for out-of-range reads in the sorting loop model. -/
def partGetD (l : List Part) (i : ℕ) : Part := l.getD i ⟨0, 0⟩

/-- One conditional swap `parts[i], parts[j] = parts[j], parts[i]` guarded by
`parts[j].Index < parts[i].Index`, from the sorting loop of
`ThresholdCombine`. -/
def swapIfLt (l : List Part) (i j : ℕ) : List Part :=
  if (partGetD l j).index < (partGetD l i).index then
    (l.set i (partGetD l j)).set j (partGetD l i)
  else l

/-- The index pairs `(i, j)` with `i < j < n` visited by the double loop
`for i in 0..n-2, for j in i+1..n-1` of `ThresholdCombine`. -/
def pairsUpTo (n : ℕ) : List (ℕ × ℕ) :=
  (List.range n).flatMap (fun i => ((List.range n).filter (fun j => i < j)).map (fun j => (i, j)))

/-- The bubble-style sort of `ThresholdCombine`. -/
def sortParts (l : List Part) : List Part :=
  (pairsUpTo l.length).foldl (fun acc p => swapIfLt acc p.1 p.2) l

/-- `ThresholdCombine` from `toprf.go`: rejects empty input and more than 255
responses, unmarshals the parts, sorts them by index with the double swap
loop, and adds all elements starting from the identity. -/
def ThresholdCombine (responses : List Part) : Except String GroupElt :=
  if responses.length = 0 then .error "toprf: no responses to combine"
  else if responses.length > 255 then .error "toprf: too many responses"
  else .ok (((sortParts responses).map (·.element)).sum)

end toprfA

namespace oprfA

/-- `Blind` from `oprf.go` over the algebraic model, with the hash-to-group
map (a fixed function of the input bytes) passed explicitly: it returns the
decoded blind `r` and `α = r · H0` where `H0 = hashToGroup(input)`. -/
def Blind (h2g : List ℕ → GroupElt) (input : List ℕ) (r : Scalar) : Scalar × GroupElt :=
  (r, r * h2g input)

/-- `Evaluate` from `oprf.go`: `β = k · α`. -/
def Evaluate (k : Scalar) (alpha : GroupElt) : GroupElt := k * alpha

/-- `Unblind` from `oprf.go`: `N = r⁻¹ · β` (`Invert` is Fermat inversion,
equal to the field inverse by `scalar_invert_eq_inv`). -/
def Unblind (r : Scalar) (beta : GroupElt) : GroupElt := r⁻¹ * beta

end oprfA

namespace dkgA

/-- `scalarFromUint8` from `dkg.go` (same map as the `toprf` one). -/
def scalarFromUint8 (v : ℕ) : Scalar := (v : Scalar)

/-- The base point `g` under the model isomorphism. -/
def g : GroupElt := 1

/-- `Element.ScalarBaseMult`: `s · g`. -/
def scalarBaseMult (s : Scalar) : GroupElt := s * g

/-- `VerifyCommitment` from `dkg.go`: returns success immediately when
`i == self`; otherwise compares `v0 = g · share.Value` against
`v1 = C[0] + Σ_{k=1}^{threshold-1} (self^k) · C[k]` (the `jPowK` loop
computes `self^k` by repeated multiplication) using constant-time equality
of canonical encodings, which is equality in the model. -/
def VerifyCommitment (n threshold self i : ℕ) (commitments : List GroupElt)
    (share : toprfA.Share) : Except String Unit :=
  if i = self then .ok ()
  else
    let v0 := scalarBaseMult share.value
    let j := scalarFromUint8 self
    let v1 := commitments.getD 0 0 +
      ((List.range (threshold - 1)).map (fun k0 => j ^ (k0 + 1) * commitments.getD (k0 + 1) 0)).sum
    if v0 = v1 then .ok ()
    else .error "dkg: commitment verification failed"

/-- `Finish` from `dkg.go`: starts from the zero scalar, rejects any share
whose index differs from `self`, and otherwise sums the share values,
returning `Share(self, Σ values)`. -/
def Finish (shares : List toprfA.Share) (self : ℕ) : Except String toprfA.Share :=
  match shares.foldlM
      (fun acc sh =>
        if sh.index = self then Except.ok (acc + sh.value)
        else Except.error "dkg: share has incorrect index")
      (0 : Scalar) with
  | .ok s => .ok ⟨self, s⟩
  | .error e => .error e

end dkgA

/-!
## Claims C10, C8, C5, C6
-/

/-- C10: `dkg.Finish(shares, self)` called with an empty share list does not
return an error; it succeeds and returns `Share{Index: self, Value: 0}`. -/
theorem c10_finish_empty_succeeds (self : ℕ) :
    dkgA.Finish [] self = .ok ⟨self, 0⟩ := rfl

/-- C8 counterexample: the claim says every call with `t < 2` is rejected,
but `CreateShares(secret, n=5, t=1)` succeeds even though `¬(2 ≤ 1)`. -/
theorem c8_counterexample :
    isOk (toprfA.CreateShares 0 5 1 []) = true ∧ ¬ (2 ≤ 1) := by
  exact ⟨rfl, by omega⟩

/-- C8 (amended): `CreateShares(secret, n, t)` returns an error if and only if
`1 ≤ t ≤ n` fails to hold (so `t = 0` and `t > n` are rejected, but `t = 1`
is accepted); the `≤ 255` bounds are enforced by the `uint8` parameter type. -/
theorem c8_createShares_error_iff (secret : Scalar) (n t : ℕ) (coeffs : List Scalar)
    (hn : n ≤ 255) (ht : t ≤ 255) :
    isOk (toprfA.CreateShares secret n t coeffs) = true ↔ (1 ≤ t ∧ t ≤ n) := by
  unfold toprfA.CreateShares
  by_cases h1 : t < 1 ∨ n < t
  · rw [if_pos h1]
    simp only [isOk]
    constructor
    · intro h; exact absurd h (by simp)
    · intro h; exact absurd h1 (by omega)
  · rw [if_neg h1, if_neg (by omega : ¬ t > n)]
    simp only [isOk]
    constructor
    · intro _; omega
    · intro _; trivial

theorem c8_createShares_error_iff_witness :
    isOk (toprfA.CreateShares 0 3 2 []) = true :=
  (c8_createShares_error_iff 0 3 2 [] (by omega) (by omega)).mpr ⟨by omega, by omega⟩

/-- C5: `VerifyCommitment(n, t, self, i, C, sh)` with a commitment vector of
length `t ≥ 1` succeeds iff `i = self` or
`g · sh.Value = Σ_{k=0}^{t-1} (self^k) · C[k]`; in every other case it
returns a failure. -/
theorem c5_verifyCommitment_iff (n t self i : ℕ) (C : List GroupElt) (sh : toprfA.Share)
    (hlen : C.length = t) (ht : 1 ≤ t) :
    dkgA.VerifyCommitment n t self i C sh = .ok () ↔
      (i = self ∨ dkgA.scalarBaseMult sh.value =
        ((List.range t).map (fun k => dkgA.scalarFromUint8 self ^ k * C.getD k 0)).sum) := by
  unfold dkgA.VerifyCommitment
  by_cases hself : i = self
  · simp [hself]
  · obtain ⟨t', rfl⟩ : ∃ t', t = t' + 1 := ⟨t - 1, by omega⟩
    have hsum : ((List.range (t' + 1)).map
        (fun k => dkgA.scalarFromUint8 self ^ k * C.getD k 0)).sum =
        C.getD 0 0 + ((List.range t').map
          (fun k0 => dkgA.scalarFromUint8 self ^ (k0 + 1) * C.getD (k0 + 1) 0)).sum := by
      rw [List.range_succ_eq_map]
      simp [List.map_map, Function.comp_def]
    simp only [hself, if_false, Nat.add_sub_cancel, hsum]
    split
    · simp_all
    · simp_all

theorem c5_verifyCommitment_iff_witness :
    dkgA.VerifyCommitment 3 2 1 2 [3, 5] ⟨1, 8⟩ = .ok () ∧
      dkgA.VerifyCommitment 3 2 1 2 [3, 5] ⟨1, 9⟩ ≠ .ok () := by
  constructor
  · exact (c5_verifyCommitment_iff 3 2 1 2 [3, 5] ⟨1, 8⟩ rfl (by omega)).mpr
      (Or.inr (by decide))
  · intro h
    have := (c5_verifyCommitment_iff 3 2 1 2 [3, 5] ⟨1, 9⟩ rfl (by omega)).mp h
    rcases this with h' | h'
    · omega
    · exact absurd h' (by decide)

/-- Helper for evaluating `a * b⁻¹` on concrete field values. -/
theorem mul_inv_eq_of (a b c : Scalar) (hb : b ≠ 0) (h : c * b = a) : a * b⁻¹ = c := by
  rw [← h, mul_assoc, mul_inv_cancel₀ hb, mul_one]

/-- C6: for the peer set `{1,2,3}`, the Lagrange reconstruction coefficients
for `f(0)` are `coeff(1) = 3`, `coeff(2) = -3 mod L`, `coeff(3) = 1`. -/
theorem c6_lagrange_sanity :
    toprfA.coeff 1 [1, 2, 3] = 3 ∧ toprfA.coeff 2 [1, 2, 3] = -3 ∧
      toprfA.coeff 3 [1, 2, 3] = 1 := by
  refine ⟨?_, ?_, ?_⟩
  · exact mul_inv_eq_of _ _ _ (by decide) (by decide)
  · exact mul_inv_eq_of _ _ _ (by decide) (by decide)
  · exact mul_inv_eq_of _ _ _ (by decide) (by decide)

/-!
## Lagrange interpolation facts for C2 and C4
-/

/-- Natural-number casts below `L` are injective into the scalar field. -/
theorem scalar_cast_inj {a b : ℕ} (ha : a < L) (hb : b < L)
    (h : (a : Scalar) = (b : Scalar)) : a = b := by
  have := congrArg ZMod.val h
  rwa [ZMod.val_cast_of_lt ha, ZMod.val_cast_of_lt hb] at this

theorem toFinset_list_range (n : ℕ) : (List.range n).toFinset = Finset.range n := by
  ext m
  simp [List.mem_range]

/-- Pointwise form of the sign cancellation between the two equivalent ways of
writing a Lagrange factor. -/
theorem lagrange_factor_flip (a b : Scalar) :
    (0 - a) * (b - a)⁻¹ = (a - 0) * (a - b)⁻¹ := by
  rw [zero_sub, sub_zero, show a - b = -(b - a) by ring, inv_neg]
  ring

/-- The `lcoeff` of `toprf.go` at `x = 0` coincides with the evaluation at `0`
of the Mathlib Lagrange basis polynomial for the node set of the peer list. -/
theorem lcoeff_eq_basis_eval (P : List ℕ) (i : ℕ) (hnd : P.Nodup) :
    toprfA.lcoeff i 0 P =
      (Lagrange.basis P.toFinset (fun m : ℕ => (m : Scalar)) i).eval 0 := by
  have hfil : (P.filter (fun p => p ≠ i)).toFinset = P.toFinset.erase i := by
    rw [← Finset.filter_ne']
    ext m
    simp [List.mem_filter]
  have hndf : (P.filter (fun p => p ≠ i)).Nodup := hnd.filter _
  simp only [toprfA.lcoeff, toprfA.scalarFromUint8]
  rw [Lagrange.basis, Polynomial.eval_prod]
  rw [← List.prod_toFinset _ hndf, ← List.prod_toFinset _ hndf, hfil]
  rw [← Finset.prod_inv_distrib, ← Finset.prod_mul_distrib]
  apply Finset.prod_congr rfl
  intro j _
  rw [Lagrange.basisDivisor, Polynomial.eval_mul, Polynomial.eval_C,
    Polynomial.eval_sub, Polynomial.eval_X, Polynomial.eval_C]
  push_cast
  rw [show ((i : Scalar) - (j : Scalar)) = -((j : Scalar) - (i : Scalar)) by ring, inv_neg]
  ring

/-- Lagrange interpolation at `0` against the source's `lcoeff`: for a list of
distinct byte-sized nodes and a polynomial of degree below the node count, the
`lcoeff`-weighted sum of its values recovers the value at `0`. -/
theorem sum_lcoeff_mul_eval (F : Polynomial Scalar) (P : List ℕ)
    (hnd : P.Nodup) (hlt : ∀ p ∈ P, p < 256)
    (hdeg : F.degree < (P.length : ℕ)) :
    (P.map (fun i => toprfA.lcoeff i 0 P * F.eval ((i : ℕ) : Scalar))).sum = F.eval 0 := by
  classical
  set v : ℕ → Scalar := fun m => (m : Scalar) with hv
  have hinj : Set.InjOn v P.toFinset := by
    intro a haf b hbf hab
    have ha : a < 256 := hlt a (List.mem_toFinset.mp haf)
    have hb : b < 256 := hlt b (List.mem_toFinset.mp hbf)
    exact scalar_cast_inj (lt_trans ha (by decide)) (lt_trans hb (by decide)) hab
  have hcard : P.toFinset.card = P.length := List.toFinset_card_of_nodup hnd
  have hF := Lagrange.eq_interpolate (s := P.toFinset) (v := v) hinj
    (by rw [hcard]; exact hdeg)
  have h0 := congrArg (Polynomial.eval 0) hF
  rw [Lagrange.interpolate_apply, Polynomial.eval_finset_sum] at h0
  simp only [Polynomial.eval_mul, Polynomial.eval_C] at h0
  have hterm : ∀ j ∈ P.toFinset,
      F.eval (v j) * (Lagrange.basis P.toFinset v j).eval 0 =
        toprfA.lcoeff j 0 P * F.eval ((j : ℕ) : Scalar) := by
    intro j _
    rw [lcoeff_eq_basis_eval P j hnd, mul_comm]
  rw [Finset.sum_congr rfl hterm] at h0
  rw [List.sum_toFinset _ hnd] at h0
  exact h0.symm

/-!
## The sorting loop of `ThresholdCombine` preserves the sum of the parts
-/

theorem sum_map_elem_set :
    ∀ (l : List toprfA.Part) (i : ℕ) (a : toprfA.Part) (hi : i < l.length),
      (((l.set i a).map (·.element)).sum : GroupElt) =
        (l.map (·.element)).sum - (l.get ⟨i, hi⟩).element + a.element := by
  intro l
  induction l with
  | nil => intro i a hi; exact absurd hi (by simp)
  | cons x xs ih =>
    intro i a hi
    cases i with
    | zero =>
      simp only [List.set_cons_zero, List.map_cons, List.sum_cons, List.get]
      abel
    | succ i =>
      have hi' : i < xs.length := by simpa using hi
      simp only [List.set_cons_succ, List.map_cons, List.sum_cons, List.get, ih i a hi']
      abel

theorem swapIfLt_length (l : List toprfA.Part) (i j : ℕ) :
    (toprfA.swapIfLt l i j).length = l.length := by
  unfold toprfA.swapIfLt
  split
  · simp
  · rfl

theorem swapIfLt_sum (l : List toprfA.Part) (i j : ℕ) (hij : i ≠ j)
    (hi : i < l.length) (hj : j < l.length) :
    ((toprfA.swapIfLt l i j).map (·.element)).sum = (l.map (·.element)).sum := by
  unfold toprfA.swapIfLt
  split
  · have hgi : toprfA.partGetD l i = l.get ⟨i, hi⟩ := by
      simp [toprfA.partGetD, List.getD_eq_getElem?_getD, List.getElem?_eq_getElem hi]
    have hgj : toprfA.partGetD l j = l.get ⟨j, hj⟩ := by
      simp [toprfA.partGetD, List.getD_eq_getElem?_getD, List.getElem?_eq_getElem hj]
    have hj' : j < (l.set i (toprfA.partGetD l j)).length := by simpa using hj
    rw [sum_map_elem_set _ j _ hj', sum_map_elem_set _ i _ hi]
    have hget : (l.set i (toprfA.partGetD l j)).get ⟨j, hj'⟩ = l.get ⟨j, hj⟩ := by
      have := List.getElem_set_ne (l := l) (a := toprfA.partGetD l j) hij (by simpa using hj)
      simpa [List.get_eq_getElem] using this
    rw [hget, hgi, hgj]
    abel
  · rfl

theorem foldl_swap_sum :
    ∀ (ps : List (ℕ × ℕ)) (l : List toprfA.Part),
      (∀ p ∈ ps, p.1 < p.2 ∧ p.2 < l.length) →
        ((ps.foldl (fun acc p => toprfA.swapIfLt acc p.1 p.2) l).map (·.element)).sum =
          (l.map (·.element)).sum := by
  intro ps
  induction ps with
  | nil => intro l _; rfl
  | cons p ps ih =>
    intro l hb
    have hp := hb p (List.mem_cons_self p ps)
    have hlen : (toprfA.swapIfLt l p.1 p.2).length = l.length := swapIfLt_length l p.1 p.2
    simp only [List.foldl_cons]
    rw [ih (toprfA.swapIfLt l p.1 p.2)
      (fun q hq => by rw [hlen]; exact hb q (List.mem_cons_of_mem p hq))]
    exact swapIfLt_sum l p.1 p.2 (Nat.ne_of_lt hp.1) (lt_trans hp.1 hp.2) hp.2

theorem pairsUpTo_mem (n : ℕ) (p : ℕ × ℕ) (hp : p ∈ toprfA.pairsUpTo n) :
    p.1 < p.2 ∧ p.2 < n := by
  unfold toprfA.pairsUpTo at hp
  simp only [List.mem_flatMap, List.mem_map, List.mem_filter, List.mem_range] at hp
  obtain ⟨i, _, j, ⟨⟨hjn, hij⟩, rfl⟩⟩ := hp
  exact ⟨by simpa using hij, hjn⟩

theorem sortParts_sum (l : List toprfA.Part) :
    ((toprfA.sortParts l).map (·.element)).sum = (l.map (·.element)).sum := by
  unfold toprfA.sortParts
  exact foldl_swap_sum (toprfA.pairsUpTo l.length) l
    (fun p hp => pairsUpTo_mem l.length p hp)

/-!
## The dealer polynomial of `CreateShares` and the reconstruction lemma
-/

/-- The dealer polynomial `f(X) = secret + Σ_{j<t1} coeffs[j] · X^(j+1)` whose
evaluations `CreateShares` hands out. -/
noncomputable def sharePoly (secret : Scalar) (coeffs : List Scalar) (t1 : ℕ) : Polynomial Scalar :=
  Polynomial.C secret + ∑ j ∈ Finset.range t1, Polynomial.C (coeffs.getD j 0) * Polynomial.X ^ (j + 1)

theorem sharePoly_eval (secret : Scalar) (coeffs : List Scalar) (t1 i : ℕ) :
    (sharePoly secret coeffs t1).eval ((i : ℕ) : Scalar) = toprfA.polyEval secret coeffs t1 i := by
  unfold sharePoly toprfA.polyEval toprfA.scalarFromUint8
  rw [Polynomial.eval_add, Polynomial.eval_C, Polynomial.eval_finset_sum]
  congr 1
  rw [← toFinset_list_range t1, List.sum_toFinset _ (List.nodup_range t1)]
  simp [Polynomial.eval_mul, Polynomial.eval_pow, Polynomial.eval_C, Polynomial.eval_X]

theorem sharePoly_eval_zero (secret : Scalar) (coeffs : List Scalar) (t1 : ℕ) :
    (sharePoly secret coeffs t1).eval 0 = secret := by
  unfold sharePoly
  rw [Polynomial.eval_add, Polynomial.eval_C, Polynomial.eval_finset_sum,
    Finset.sum_eq_zero, add_zero]
  intro j _
  simp [Polynomial.eval_mul, Polynomial.eval_pow, Polynomial.eval_C, Polynomial.eval_X,
    zero_pow (Nat.succ_ne_zero j)]

theorem sharePoly_degree (secret : Scalar) (coeffs : List Scalar) (t1 : ℕ) :
    (sharePoly secret coeffs t1).degree ≤ (t1 : ℕ) := by
  unfold sharePoly
  apply le_trans (Polynomial.degree_add_le _ _)
  apply max_le
  · exact le_trans Polynomial.degree_C_le (by exact_mod_cast Nat.zero_le t1)
  · apply le_trans (Polynomial.degree_sum_le _ _)
    apply Finset.sup_le
    intro j hj
    apply le_trans (Polynomial.degree_mul_le _ _)
    have h2 : (Polynomial.X ^ (j + 1) : Polynomial Scalar).degree = ((j + 1 : ℕ) : WithBot ℕ) :=
      Polynomial.degree_X_pow _
    calc (Polynomial.C (coeffs.getD j 0)).degree + (Polynomial.X ^ (j + 1)).degree
        ≤ 0 + ((j + 1 : ℕ) : WithBot ℕ) := add_le_add Polynomial.degree_C_le (le_of_eq h2)
      _ = ((j + 1 : ℕ) : WithBot ℕ) := zero_add _
      _ ≤ ((t1 : ℕ) : WithBot ℕ) := by
          exact_mod_cast Nat.succ_le_of_lt (Finset.mem_range.mp hj)

/-- Every share in a successful `CreateShares` output has an index in `1..n`
and carries the dealer polynomial's value at its index. -/
theorem createShares_mem (secret : Scalar) (n t : ℕ) (coeffs : List Scalar)
    (shares : List toprfA.Share)
    (hok : toprfA.CreateShares secret n t coeffs = .ok shares)
    (sh : toprfA.Share) (hm : sh ∈ shares) :
    1 ≤ sh.index ∧ sh.index ≤ n ∧
      sh.value = toprfA.polyEval secret coeffs (t - 1) sh.index := by
  unfold toprfA.CreateShares at hok
  by_cases h1 : t < 1 ∨ n < t
  · rw [if_pos h1] at hok
    cases hok
  · rw [if_neg h1, if_neg (by omega : ¬ t > n)] at hok
    have hsh : shares =
        (List.range n).map (fun k => ⟨k + 1, toprfA.polyEval secret coeffs (t - 1) (k + 1)⟩) := by
      cases hok
      rfl
    subst hsh
    simp only [List.mem_map, List.mem_range] at hm
    obtain ⟨k, hk, rfl⟩ := hm
    refine ⟨?_, ?_, rfl⟩
    · show 1 ≤ k + 1
      omega
    · show k + 1 ≤ n
      omega

/-- Core Shamir reconstruction: for any `t`-subset (by distinct indexes) of a
successful `CreateShares(secret, n, t)` output, the `lcoeff(·, 0, P)`-weighted
sum of the share values is the secret. -/
theorem shares_lcoeff_sum (secret : Scalar) (n t : ℕ) (coeffs : List Scalar)
    (shares S : List toprfA.Share)
    (hn : n ≤ 255) (ht1 : 1 ≤ t)
    (hok : toprfA.CreateShares secret n t coeffs = .ok shares)
    (hsub : ∀ sh ∈ S, sh ∈ shares)
    (hnd : (S.map (·.index)).Nodup)
    (hlen : S.length = t) :
    (S.map (fun sh => toprfA.lcoeff sh.index 0 (S.map (·.index)) * sh.value)).sum = secret := by
  have hmem : ∀ sh ∈ S, 1 ≤ sh.index ∧ sh.index ≤ n ∧
      sh.value = toprfA.polyEval secret coeffs (t - 1) sh.index :=
    fun sh hm => createShares_mem secret n t coeffs shares hok sh (hsub sh hm)
  have hmap1 : S.map (fun sh => toprfA.lcoeff sh.index 0 (S.map (·.index)) * sh.value) =
      S.map (fun sh => toprfA.lcoeff sh.index 0 (S.map (·.index)) *
        (sharePoly secret coeffs (t - 1)).eval ((sh.index : ℕ) : Scalar)) := by
    apply List.map_congr_left
    intro sh hm
    rw [(hmem sh hm).2.2, sharePoly_eval]
  have hmap2 : S.map (fun sh => toprfA.lcoeff sh.index 0 (S.map (·.index)) *
      (sharePoly secret coeffs (t - 1)).eval ((sh.index : ℕ) : Scalar)) =
      (S.map (·.index)).map (fun i => toprfA.lcoeff i 0 (S.map (·.index)) *
        (sharePoly secret coeffs (t - 1)).eval ((i : ℕ) : Scalar)) := by
    rw [List.map_map]
    rfl
  rw [hmap1, hmap2]
  rw [sum_lcoeff_mul_eval (sharePoly secret coeffs (t - 1)) (S.map (·.index)) hnd
    (fun p hp => by
      simp only [List.mem_map] at hp
      obtain ⟨sh, hm, rfl⟩ := hp
      have := hmem sh hm
      omega)
    (by
      rw [List.length_map, hlen]
      apply lt_of_le_of_lt (sharePoly_degree secret coeffs (t - 1))
      exact_mod_cast (by omega : t - 1 < t))]
  exact sharePoly_eval_zero secret coeffs (t - 1)

/-- C4: Shamir recovery.  For every secret `s`, parameters `2 ≤ t ≤ n ≤ 255`,
every choice of random polynomial coefficients inside `CreateShares(s, n, t)`,
and every subset `S` of exactly `t` of the returned shares (with distinct
indexes), `InterpolateScalar(0, S)` returns `s`. -/
theorem c4_shamir_recovery (secret : Scalar) (n t : ℕ) (coeffs : List Scalar)
    (shares S : List toprfA.Share)
    (hn : n ≤ 255) (ht2 : 2 ≤ t)
    (hok : toprfA.CreateShares secret n t coeffs = .ok shares)
    (hsub : ∀ sh ∈ S, sh ∈ shares)
    (hnd : (S.map (·.index)).Nodup)
    (hlen : S.length = t) :
    toprfA.InterpolateScalar 0 S = .ok secret := by
  have hne : S.isEmpty = false := by
    cases S with
    | nil => simp at hlen; omega
    | cons x xs => rfl
  unfold toprfA.InterpolateScalar
  rw [hne]
  simp only [Bool.false_eq_true, if_false]
  rw [shares_lcoeff_sum secret n t coeffs shares S hn (by omega) hok hsub hnd hlen]

theorem c4_shamir_recovery_witness :
    toprfA.InterpolateScalar 0 [⟨1, 8⟩, ⟨2, 13⟩] = .ok 3 := by
  have hok : toprfA.CreateShares 3 2 2 [5] =
      .ok [⟨1, toprfA.polyEval 3 [5] 1 1⟩, ⟨2, toprfA.polyEval 3 [5] 1 2⟩] := rfl
  have h1 : toprfA.polyEval 3 [5] 1 1 = 8 := by decide
  have h2 : toprfA.polyEval 3 [5] 1 2 = 13 := by decide
  have := c4_shamir_recovery 3 2 2 [5]
    [⟨1, toprfA.polyEval 3 [5] 1 1⟩, ⟨2, toprfA.polyEval 3 [5] 1 2⟩]
    [⟨1, toprfA.polyEval 3 [5] 1 1⟩, ⟨2, toprfA.polyEval 3 [5] 1 2⟩]
    (by omega) (by omega) hok
    (by intro sh hm; exact hm)
    (by decide) (by decide)
  rwa [h1, h2] at this

/-- C2: threshold correctness (pre-baked coefficient variant).  For every
secret `s`, parameters `2 ≤ t ≤ n ≤ 255`, every choice of the random
polynomial coefficients drawn inside `CreateShares(s, n, t)`, every subset `S`
of the produced shares with exactly `t` distinct indexes `P`, and every
blinded element `α`, combining with `ThresholdCombine` the `t` parts
`toprf.Evaluate(share_i, α, P)` for `i ∈ P` yields the same `β` as
`oprf.Evaluate(s, α)`. -/
theorem c2_threshold_correctness (secret : Scalar) (n t : ℕ) (coeffs : List Scalar)
    (shares S : List toprfA.Share) (alpha : GroupElt)
    (hn : n ≤ 255) (ht2 : 2 ≤ t)
    (hok : toprfA.CreateShares secret n t coeffs = .ok shares)
    (hsub : ∀ sh ∈ S, sh ∈ shares)
    (hnd : (S.map (·.index)).Nodup)
    (hlen : S.length = t) :
    toprfA.ThresholdCombine (S.map (fun sh => toprfA.Evaluate sh alpha (S.map (·.index)))) =
      .ok (oprfA.Evaluate secret alpha) := by
  have htn : t ≤ n := by
    unfold toprfA.CreateShares at hok
    by_cases h1 : t < 1 ∨ n < t
    · rw [if_pos h1] at hok
      cases hok
    · omega
  have hplen : (S.map (fun sh => toprfA.Evaluate sh alpha (S.map (·.index)))).length = t := by
    rw [List.length_map, hlen]
  unfold toprfA.ThresholdCombine
  rw [if_neg (by omega), if_neg (by omega)]
  congr 1
  rw [sortParts_sum]
  have hmap : (S.map (fun sh => toprfA.Evaluate sh alpha (S.map (·.index)))).map (·.element) =
      S.map (fun sh =>
        (toprfA.lcoeff sh.index 0 (S.map (·.index)) * sh.value) * alpha) := by
    rw [List.map_map]
    apply List.map_congr_left
    intro sh _
    show sh.value * toprfA.coeff sh.index (S.map (·.index)) * alpha = _
    unfold toprfA.coeff
    ring
  rw [hmap, List.sum_map_mul_right,
    shares_lcoeff_sum secret n t coeffs shares S hn (by omega) hok hsub hnd hlen]
  unfold oprfA.Evaluate
  ring

theorem c2_threshold_correctness_witness :
    toprfA.ThresholdCombine
      ([(⟨1, toprfA.polyEval 3 [5] 1 1⟩ : toprfA.Share), ⟨2, toprfA.polyEval 3 [5] 1 2⟩].map
        (fun sh => toprfA.Evaluate sh 7
          ([(⟨1, toprfA.polyEval 3 [5] 1 1⟩ : toprfA.Share),
            ⟨2, toprfA.polyEval 3 [5] 1 2⟩].map (·.index)))) =
      .ok (oprfA.Evaluate 3 7) :=
  c2_threshold_correctness 3 2 2 [5]
    [⟨1, toprfA.polyEval 3 [5] 1 1⟩, ⟨2, toprfA.polyEval 3 [5] 1 2⟩]
    [⟨1, toprfA.polyEval 3 [5] 1 1⟩, ⟨2, toprfA.polyEval 3 [5] 1 2⟩] 7
    (by omega) (by omega) rfl (fun sh hm => hm) (by decide) (by decide)

/-- C1 (amended): the OPRF round trip holds for every key `k`, input `x` and
**nonzero** blind `r`: with `(r, α) = Blind(x, r)`,
`Finalize(x, Unblind(r, Evaluate(k, α))) = Finalize(x, k · hash_to_group(x))`
for the fixed hash-to-group map `h2g` and any finalize function `fin` (in
particular the OPRF output does not depend on such `r`).  The zero blind is
excluded: `Blind` accepts the canonical zero scalar, and `Unblind` inverts it
to `0`, breaking the round trip (see the byte-level counterexample). -/
theorem c1_roundtrip_amended {Out : Type} (h2g : List ℕ → GroupElt)
    (fin : List ℕ → GroupElt → Out) (k r : Scalar) (x : List ℕ) (hr : r ≠ 0) :
    fin x (oprfA.Unblind r (oprfA.Evaluate k (oprfA.Blind h2g x r).2)) =
      fin x (oprfA.Evaluate k (h2g x)) := by
  unfold oprfA.Blind oprfA.Evaluate oprfA.Unblind
  congr 1
  rw [show r⁻¹ * (k * (r * h2g x)) = (r⁻¹ * r) * (k * h2g x) by ring,
    inv_mul_cancel₀ hr, one_mul]

theorem c1_roundtrip_amended_witness :
    (fun (_ : List ℕ) (e : GroupElt) => e) []
        (oprfA.Unblind 5 (oprfA.Evaluate 2
          (oprfA.Blind (fun (_ : List ℕ) => (3 : GroupElt)) [] 5).2)) =
      (fun (_ : List ℕ) (e : GroupElt) => e) []
        (oprfA.Evaluate 2 ((fun (_ : List ℕ) => (3 : GroupElt)) [])) :=
  c1_roundtrip_amended (fun _ => 3) (fun _ e => e) 2 5 []
    (by intro h; exact absurd (congrArg ZMod.val h) (by decide))
/-!
## Byte-level model

An exact executable translation of the byte-oriented pipeline: SHA-512,
ristretto255 (RFC 9496) over `GF(2^255 - 19)`, and the functions of
`oprf/oprf.go` and `toprf/toprf.go` on raw byte strings (`List ℕ`, one byte
per entry).  SHA-512 and the curve arithmetic model the external Go standard
library and `gtank/ristretto255` dependency; the `oprfB`/`toprfB` functions
are direct translations of the repository code on top of them.

The two long loops (the SHA-512 rounds and the 256-bit double-and-add) are
written as tail-recursive iterations over a single packed natural number,
with a `match` forcing the accumulator at every step, so that kernel
evaluation of the concrete test vectors runs in constant stack space.
-/

/-- Tail-recursive iteration `acc ← f k acc` for `k = n-1, n-2, …, 0`,
forcing the accumulator to a numeral at every step. -/
def natIterIdx (f : ℕ → ℕ → ℕ) : ℕ → ℕ → ℕ
  | 0, acc => acc
  | n + 1, acc =>
    match f n acc with
    | 0 => natIterIdx f n 0
    | m + 1 => natIterIdx f n (m + 1)

theorem natIterIdx_succ (f : ℕ → ℕ → ℕ) (n acc : ℕ) :
    natIterIdx f (n + 1) acc = natIterIdx f n (f n acc) := by
  show (match f n acc with
    | 0 => natIterIdx f n 0
    | m + 1 => natIterIdx f n (m + 1)) = _
  cases f n acc <;> rfl

namespace sha2

/-- `2^64`, the word modulus of SHA-512. -/
def M64 : ℕ := 18446744073709551616

def rotr (x n : ℕ) : ℕ := ((x >>> n) ||| (x <<< (64 - n))) % M64

def bsig0 (x : ℕ) : ℕ := rotr x 28 ^^^ rotr x 34 ^^^ rotr x 39

def bsig1 (x : ℕ) : ℕ := rotr x 14 ^^^ rotr x 18 ^^^ rotr x 41

def ssig0 (x : ℕ) : ℕ := rotr x 1 ^^^ rotr x 8 ^^^ (x >>> 7)

def ssig1 (x : ℕ) : ℕ := rotr x 19 ^^^ rotr x 61 ^^^ (x >>> 6)

def ch (x y z : ℕ) : ℕ := (x &&& y) ^^^ ((x ^^^ (M64 - 1)) &&& z)

def maj (x y z : ℕ) : ℕ := (x &&& y) ^^^ (x &&& z) ^^^ (y &&& z)

def shaK : List ℕ := [
  4794697086780616226, 8158064640168781261, 13096744586834688815, 16840607885511220156,
  4131703408338449720, 6480981068601479193, 10538285296894168987, 12329834152419229976,
  15566598209576043074, 1334009975649890238, 2608012711638119052, 6128411473006802146,
  8268148722764581231, 9286055187155687089, 11230858885718282805, 13951009754708518548,
  16472876342353939154, 17275323862435702243, 1135362057144423861, 2597628984639134821,
  3308224258029322869, 5365058923640841347, 6679025012923562964, 8573033837759648693,
  10970295158949994411, 12119686244451234320, 12683024718118986047, 13788192230050041572,
  14330467153632333762, 15395433587784984357, 489312712824947311, 1452737877330783856,
  2861767655752347644, 3322285676063803686, 5560940570517711597, 5996557281743188959,
  7280758554555802590, 8532644243296465576, 9350256976987008742, 10552545826968843579,
  11727347734174303076, 12113106623233404929, 14000437183269869457, 14369950271660146224,
  15101387698204529176, 15463397548674623760, 17586052441742319658, 1182934255886127544,
  1847814050463011016, 2177327727835720531, 2830643537854262169, 3796741975233480872,
  4115178125766777443, 5681478168544905931, 6601373596472566643, 7507060721942968483,
  8399075790359081724, 8693463985226723168, 9568029438360202098, 10144078919501101548,
  10430055236837252648, 11840083180663258601, 13761210420658862357, 14299343276471374635,
  14566680578165727644, 15097957966210449927, 16922976911328602910, 17689382322260857208,
  500013540394364858, 748580250866718886, 1242879168328830382, 1977374033974150939,
  2944078676154940804, 3659926193048069267, 4368137639120453308, 4836135668995329356,
  5532061633213252278, 6448918945643986474, 6902733635092675308, 7801388544844847127]

def shaH0 : List ℕ := [
  7640891576956012808, 13503953896175478587, 4354685564936845355, 11912009170470909681,
  5840696475078001361, 11170449401992604703, 2270897969802886507, 6620516959819538809]

/-- Word `i` of a state packed as a natural number (64 bits per word,
word 0 in the lowest bits). -/
def wGet (st i : ℕ) : ℕ := (st >>> (64 * i)) &&& (M64 - 1)

/-- Big-endian 64-bit word starting at byte offset `i`. -/
def word64At (msg : List ℕ) (i : ℕ) : ℕ :=
  (List.range 8).foldl (fun acc k => acc * 256 + msg.getD (i + k) 0) 0

/-- The 16 words of block `b` of the padded message, packed. -/
def blockWords (padded : List ℕ) (b : ℕ) : ℕ :=
  (List.range 16).foldl (fun acc i => acc + (word64At padded (b * 128 + i * 8) <<< (64 * i))) 0

/-- Extend the 16 block words to the 80-word message schedule
(`W[t] = σ1(W[t-2]) + W[t-7] + σ0(W[t-15]) + W[t-16]`), packed. -/
def extendW (w16 : ℕ) : ℕ :=
  natIterIdx
    (fun k w =>
      let i := 63 - k
      w + (((ssig1 (wGet w (i + 14)) + wGet w (i + 9) +
        ssig0 (wGet w (i + 1)) + wGet w i) % M64) <<< (64 * (16 + i))))
    64 w16

/-- One SHA-512 round on the packed 8-word state. -/
def round (i w st : ℕ) : ℕ :=
  let a := wGet st 0
  let b := wGet st 1
  let c := wGet st 2
  let d := wGet st 3
  let e := wGet st 4
  let f := wGet st 5
  let g := wGet st 6
  let hh := wGet st 7
  let t1 := (hh + bsig1 e + ch e f g + shaK.getD i 0 + wGet w i) % M64
  let t2 := (bsig0 a + maj a b c) % M64
  (t1 + t2) % M64 + (a <<< 64) + (b <<< 128) + (c <<< 192) +
    (((d + t1) % M64) <<< 256) + (e <<< 320) + (f <<< 384) + (g <<< 448)

/-- Compress one block into the packed state: 80 rounds, then the
word-wise addition of the old state. -/
def compress (st w : ℕ) : ℕ :=
  let fin := natIterIdx (fun k s => round (79 - k) w s) 80 st
  (List.range 8).foldl (fun acc i => acc + (((wGet st i + wGet fin i) % M64) <<< (64 * i))) 0

/-- The packed SHA-512 initial state. -/
def stInit : ℕ :=
  (List.range 8).foldl (fun acc i => acc + (shaH0.getD i 0 <<< (64 * i))) 0

/-- SHA-512 of a byte string: standard padding (`0x80`, zeros, 128-bit
big-endian bit length), block iteration, big-endian digest bytes. -/
def sha512 (msg : List ℕ) : List ℕ :=
  let len := msg.length
  let padded := msg ++ 128 :: List.replicate ((128 - (len + 17) % 128) % 128) 0 ++
    (List.range 16).map (fun i => ((len * 8) >>> ((15 - i) * 8)) % 256)
  let nblocks := padded.length / 128
  let fin := (List.range nblocks).foldl (fun st b => compress st (extendW (blockWords padded b))) stInit
  (List.range 64).map (fun i => (wGet fin (i / 8) >>> ((7 - i % 8) * 8)) % 256)

end sha2

namespace rist

/-- The field prime `2^255 - 19`. -/
def P : ℕ := 57896044618658097711785492504343953926634992332820282019728792003956564819949

def fadd (a b : ℕ) : ℕ := (a + b) % P

def fsub (a b : ℕ) : ℕ := (a % P + P - b % P) % P

def fmul (a b : ℕ) : ℕ := a * b % P

def fneg (a : ℕ) : ℕ := (P - a % P) % P

def fpow (a e : ℕ) : ℕ := powMod 300 a e P

def finv (a : ℕ) : ℕ := fpow a (P - 2)

/-- A field element is negative when the low bit of its canonical encoding is
set. -/
def fIsNeg (a : ℕ) : Bool := a % 2 = 1

def fabs (a : ℕ) : ℕ := if fIsNeg a then fneg a else a % P

def SQRT_M1 : ℕ := 19681161376707505956807079304988542015446066515923890162744021073123829784752

def D : ℕ := 37095705934669439343138083508754565189542113879843219016388785533085940283555

def ONE_MINUS_D_SQ : ℕ := 1159843021668779879193775521855586647937357759715417654439879720876111806838

def D_MINUS_ONE_SQ : ℕ := 40440834346308536858101042469323190826248399146238708352240133220865137265952

def SQRT_AD_MINUS_ONE : ℕ := 25063068953384623474111414158702152701244531502492656460079210482610430750235

def INVSQRT_A_MINUS_D : ℕ := 54469307008909316920995813868745141605393597292927456921205312896311721017578

/-- `SQRT_RATIO_M1` from RFC 9496 §4.2: the nonnegative square root of `u/v`
(or of `SQRT_M1 · u/v` when `u/v` is not square), with the was-square flag. -/
def sqrtRatioM1 (u v : ℕ) : Bool × ℕ :=
  let v3 := fmul (fmul v v) v
  let v7 := fmul (fmul v3 v3) v
  let r := fmul (fmul u v3) (fpow (fmul u v7) ((P - 5) / 8))
  let check := fmul v (fmul r r)
  let correct := check = u % P
  let flipped := check = fneg u
  let flippedI := check = fmul (fneg u) SQRT_M1
  let r2 := if flipped || flippedI then fmul r SQRT_M1 else r
  (correct || flipped, fabs r2)

/-- Extended Edwards coordinates `(X, Y, Z, T)` on the `a = -1` twisted
Edwards curve underlying ristretto255. -/
def Point : Type := ℕ × ℕ × ℕ × ℕ

def ident : Point := (0, 1, 1, 0)

/-- Unified extended-coordinate point addition. -/
def ptAdd (p q : Point) : Point :=
  let (x1, y1, z1, t1) := p
  let (x2, y2, z2, t2) := q
  let a := fmul (fsub y1 x1) (fsub y2 x2)
  let b := fmul (fadd y1 x1) (fadd y2 x2)
  let c := fmul (fmul t1 (fmul 2 D)) t2
  let d := fmul (fmul z1 2) z2
  let e := fsub b a
  let f := fsub d c
  let g := fadd d c
  let h := fadd b a
  (fmul e f, fmul g h, fmul f g, fmul e h)

/-- Extended-coordinate point doubling. -/
def ptDouble (p : Point) : Point :=
  let (x1, y1, z1, _) := p
  let a := fmul x1 x1
  let b := fmul y1 y1
  let c := fmul 2 (fmul z1 z1)
  let h := fadd a b
  let e := fsub h (fmul (fadd x1 y1) (fadd x1 y1))
  let g := fsub a b
  let f := fadd c g
  (fmul e f, fmul g h, fmul f g, fmul e h)

/-- Pack the four coordinates into one natural number (256 bits each). -/
def pack4 (p : Point) : ℕ :=
  p.1 + (p.2.1 <<< 256) + (p.2.2.1 <<< 512) + (p.2.2.2 <<< 768)

def pGet (n i : ℕ) : ℕ := (n >>> (256 * i)) &&& (2 ^ 256 - 1)

def unpack4 (n : ℕ) : Point := (pGet n 0, pGet n 1, pGet n 2, pGet n 3)

/-- Double-and-add scalar multiplication over the 256 scalar bits, most
significant bit first, iterated over a packed accumulator. -/
def ptMul (s : ℕ) (p : Point) : Point :=
  unpack4 (natIterIdx
    (fun k acc =>
      let qd := ptDouble (unpack4 acc)
      pack4 (if s.testBit k then ptAdd qd p else qd))
    256 (pack4 ident))

/-- Little-endian value of a byte list. -/
def leNat (l : List ℕ) : ℕ := l.foldr (fun b acc => acc * 256 + b) 0

/-- `len` little-endian bytes of `n`. -/
def natToLe (n len : ℕ) : List ℕ := (List.range len).map (fun i => (n >>> (8 * i)) % 256)

/-- The `MAP` function of RFC 9496 §4.3.4 (Elligator). -/
def mapToPoint (t : ℕ) : Point :=
  let r := fmul SQRT_M1 (fmul t t)
  let u := fmul (fadd r 1) ONE_MINUS_D_SQ
  let v := fmul (fsub (fneg 1) (fmul r D)) (fadd r D)
  let ws := sqrtRatioM1 u v
  let sPrime := fneg (fabs (fmul ws.2 t))
  let s := if ws.1 then ws.2 else sPrime
  let c := if ws.1 then fneg 1 else r
  let n := fsub (fmul (fmul c (fsub r 1)) D_MINUS_ONE_SQ) v
  let w0 := fmul 2 (fmul s v)
  let w1 := fmul n SQRT_AD_MINUS_ONE
  let w2 := fsub 1 (fmul s s)
  let w3 := fadd 1 (fmul s s)
  (fmul w0 w3, fmul w2 w1, fmul w1 w3, fmul w0 w2)

/-- `Element.FromUniformBytes`: the RFC 9496 one-way map on 64 uniform
bytes. -/
def fromUniform (b : List ℕ) : Point :=
  let r0 := leNat (b.take 32) % 2 ^ 255
  let r1 := leNat (b.drop 32) % 2 ^ 255
  ptAdd (mapToPoint (r0 % P)) (mapToPoint (r1 % P))

/-- `Element.Encode`: the canonical 32-byte ristretto255 encoding
(RFC 9496 §4.3.2). -/
def encode (p : Point) : List ℕ :=
  let (x, y, z, t) := p
  let u1 := fmul (fadd z y) (fsub z y)
  let u2 := fmul x y
  let invsqrt := (sqrtRatioM1 1 (fmul u1 (fmul u2 u2))).2
  let den1 := fmul invsqrt u1
  let den2 := fmul invsqrt u2
  let zInv := fmul (fmul den1 den2) t
  let ix0 := fmul x SQRT_M1
  let iy0 := fmul y SQRT_M1
  let enchantedDenominator := fmul den1 INVSQRT_A_MINUS_D
  let rotate := fIsNeg (fmul t zInv)
  let x' := if rotate then iy0 else x % P
  let y' := if rotate then ix0 else y % P
  let denInv := if rotate then enchantedDenominator else den2
  let y'' := if fIsNeg (fmul x' zInv) then fneg y' else y'
  let s := fabs (fmul denInv (fsub z y''))
  natToLe s 32

/-- `Element.Decode`: accepts exactly the canonical 32-byte encodings of
group elements (RFC 9496 §4.3.1). -/
def decode (b : List ℕ) : Option Point :=
  if b.length ≠ 32 then none
  else
    let s := leNat b
    if s ≥ P then none
    else if fIsNeg s then none
    else
      let ss := fmul s s
      let u1 := fsub 1 ss
      let u2 := fadd 1 ss
      let u2sq := fmul u2 u2
      let v := fsub (fneg (fmul (fmul D u1) u1)) u2sq
      let ws := sqrtRatioM1 1 (fmul v u2sq)
      let denX := fmul ws.2 u2
      let denY := fmul (fmul ws.2 denX) v
      let x := fabs (fmul (fmul 2 s) denX)
      let y := fmul u1 denY
      let t := fmul x y
      if ¬ ws.1 then none
      else if fIsNeg t then none
      else if y = 0 then none
      else some (x, y, 1, t)

/-- `Scalar.Decode`: accepts exactly the 32-byte little-endian encodings of
values below the group order `L`. -/
def scDecode (b : List ℕ) : Option ℕ :=
  if b.length ≠ 32 then none
  else
    let v := leNat b
    if v < L then some v else none

/-- `Scalar.Encode`. -/
def scEncode (v : ℕ) : List ℕ := natToLe v 32

/-- `Scalar.Invert`: constant-time Fermat exponentiation `v^(L-2) mod L`
(in particular `Invert 0 = 0`). -/
def scInvert (v : ℕ) : ℕ := powMod 300 v (L - 2) L

end rist

/-- The 40-byte DST `HashToGroup-OPRFV1-\x00-ristretto255-SHA512`. -/
def HashToGroupDST : List ℕ := [
  72, 97, 115, 104, 84, 111, 71, 114, 111, 117, 112, 45, 79, 80, 82, 70,
  86, 49, 45, 0, 45, 114, 105, 115, 116, 114, 101, 116, 116, 111, 50, 53,
  53, 45, 83, 72, 65, 53, 49, 50]

/-- The ASCII bytes of `Finalize`. -/
def FinalizeDST : List ℕ := [70, 105, 110, 97, 108, 105, 122, 101]

def vecKey : List ℕ := [
  94, 188, 234, 94, 227, 112, 35, 204, 185, 252, 45, 32, 25, 249, 215, 115,
  123, 232, 85, 145, 174, 134, 82, 255, 169, 239, 15, 77, 55, 6, 59, 14]
def vecBlind : List ℕ := [
  100, 211, 122, 237, 34, 162, 127, 81, 145, 222, 28, 29, 105, 250, 219, 137,
  157, 136, 98, 181, 142, 180, 34, 0, 41, 224, 54, 236, 76, 31, 103, 6]
def vecAlpha : List ℕ := [
  96, 154, 10, 230, 140, 21, 163, 207, 105, 3, 118, 100, 97, 48, 126, 92,
  139, 178, 249, 94, 126, 101, 80, 225, 255, 162, 220, 153, 228, 18, 128, 60]
def vecBeta : List ℕ := [
  126, 198, 87, 138, 229, 18, 9, 88, 235, 45, 177, 116, 87, 88, 255, 55,
  158, 119, 203, 100, 254, 119, 176, 178, 216, 204, 145, 126, 160, 134, 156, 126]
def vecOut : List ℕ := [
  82, 119, 89, 195, 217, 54, 111, 39, 125, 140, 96, 32, 65, 141, 150, 187,
  57, 59, 162, 175, 178, 15, 249, 13, 242, 63, 183, 112, 130, 100, 226, 243,
  171, 145, 53, 227, 189, 105, 149, 88, 81, 222, 75, 31, 159, 232, 160, 151,
  51, 150, 113, 155, 121, 18, 186, 158, 232, 170, 125, 11, 94, 36, 188, 246]


namespace oprfB

/-- `expandMessageXMD` from `oprf.go` (RFC 9380 §5.3.1 with SHA-512): computes
`ell = ceil(len/64)`, rejects only `ell > 255`, then derives
`b_1 ‖ … ‖ b_ell` from `b_0` under the length-suffixed DST.  The source
checks neither `len(dst) > 255` (the appended length byte silently wraps via
`byte(len(dst))`) nor anything else. -/
def expandMessageXMD (msg dst : List ℕ) (lenInBytes : ℕ) : Except String (List ℕ) :=
  let ell := (lenInBytes + 63) / 64
  if ell > 255 then .error "lenInBytes too large for expand_message_xmd"
  else
    let dstPrime := dst ++ [dst.length % 256]
    let zPad := List.replicate 128 0
    let libStr := [lenInBytes % 65536 / 256, lenInBytes % 256]
    let b0 := sha2.sha512 (zPad ++ msg ++ libStr ++ [0] ++ dstPrime)
    let b1 := sha2.sha512 (b0 ++ [1] ++ dstPrime)
    let fin := (List.range (ell - 1)).foldl
      (fun (acc : List ℕ × List ℕ) k =>
        let bi := sha2.sha512
          ((List.zipWith (fun a b => a ^^^ b) b0 acc.2) ++ [(k + 2) % 256] ++ dstPrime)
        (acc.1 ++ bi, bi))
      (b1, b1)
    .ok (fin.1.take lenInBytes)

/-- `hashToGroup` from `oprf.go`: expand the message to 64 uniform bytes
under the hash-to-group DST, then apply the ristretto255 one-way map. -/
def hashToGroup (msg : List ℕ) : Except String rist.Point :=
  match expandMessageXMD msg HashToGroupDST 64 with
  | .error e => .error e
  | .ok u => .ok (rist.fromUniform u)

/-- `Blind` from `oprf.go`, deterministic path with a caller-supplied blind
(the claims under test all fix the blind; with `blind == nil` the source
draws a fresh random scalar instead): hash the input to the group, decode
the 32-byte blind as a canonical scalar, return `(r, encode(r · H0))`. -/
def Blind (input blind : List ℕ) : Except String (List ℕ × List ℕ) :=
  match hashToGroup input with
  | .error e => .error e
  | .ok h0 =>
    if blind.length ≠ 32 then .error "blind must be 32 bytes"
    else
      match rist.scDecode blind with
      | none => .error "invalid blind scalar"
      | some r => .ok (blind, rist.encode (rist.ptMul r h0))

/-- `Evaluate` from `oprf.go`: length checks, decode `k` and `α`, return
`encode(k · α)`. -/
def Evaluate (k alpha : List ℕ) : Except String (List ℕ) :=
  if k.length ≠ 32 then .error "private key must be 32 bytes"
  else if alpha.length ≠ 32 then .error "alpha must be 32 bytes"
  else
    match rist.scDecode k with
    | none => .error "invalid private key"
    | some kv =>
      match rist.decode alpha with
      | none => .error "invalid alpha element"
      | some a => .ok (rist.encode (rist.ptMul kv a))

/-- `Unblind` from `oprf.go`: length checks, decode `r` and `β`, return
`encode(r⁻¹ · β)` where the inverse is the library's Fermat `Invert`. -/
def Unblind (r beta : List ℕ) : Except String (List ℕ) :=
  if r.length ≠ 32 then .error "blind scalar must be 32 bytes"
  else if beta.length ≠ 32 then .error "beta must be 32 bytes"
  else
    match rist.scDecode r with
    | none => .error "invalid blind scalar"
    | some rv =>
      match rist.decode beta with
      | none => .error "invalid beta element"
      | some b => .ok (rist.encode (rist.ptMul (rist.scInvert rv) b))

/-- `Finalize` from `oprf.go`:
`SHA512(uint16(len(x)) ‖ x ‖ uint16(len(N)) ‖ N ‖ "Finalize")` with 2-byte
big-endian lengths.  The only check is `len(N) == 32`; in particular
`uint16(len(x))` silently truncates an input longer than 65535 bytes. -/
def Finalize (input n : List ℕ) : Except String (List ℕ) :=
  if n.length ≠ 32 then .error "n must be 32 bytes"
  else .ok (sha2.sha512
    ([input.length % 65536 / 256, input.length % 256] ++ input ++
      [n.length % 65536 / 256, n.length % 256] ++ n ++ FinalizeDST))

end oprfB

namespace toprfB

/-- `lcoeff` from `toprf.go` on concrete scalars mod `L` (skip `peer ==
index`, multiply up `(peer - x)` and `(peer - index)`, then multiply the
dividend by the Fermat inverse of the divisor). -/
def lcoeff (index x : ℕ) (peers : List ℕ) : ℕ :=
  let others := peers.filter (fun p => p ≠ index)
  let dividend := others.foldl (fun acc p => acc * ((p % L + L - x % L) % L) % L) 1
  let divisor := others.foldl (fun acc p => acc * ((p % L + L - index % L) % L) % L) 1
  dividend * rist.scInvert divisor % L

/-- `coeff` from `toprf.go`. -/
def coeff (index : ℕ) (peers : List ℕ) : ℕ := lcoeff index 0 peers

/-- `Evaluate` from `toprf.go` on raw bytes: the only validation is the
32-byte length of the blinded element; then `c = coeff(share.Index,
indexes)`, `adjustedKey = share.Value · c`, decode, scalar-multiply, and
marshal the `Part` as `index ‖ encode(β)`.  No peer-index validation of any
kind is performed. -/
def Evaluate (shareIndex shareValue : ℕ) (blinded : List ℕ) (indexes : List ℕ) :
    Except String (List ℕ) :=
  if blinded.length ≠ 32 then .error "toprf: invalid blinded element length"
  else
    let c := coeff shareIndex indexes
    let adjustedKey := shareValue * c % L
    match rist.decode blinded with
    | none => .error "invalid alpha element"
    | some a => .ok (shareIndex % 256 :: rist.encode (rist.ptMul adjustedKey a))

end toprfB

instance exceptDecEq {ε α : Type} [DecidableEq ε] [DecidableEq α] : DecidableEq (Except ε α)
  | .ok x, .ok y =>
    if h : x = y then .isTrue (by rw [h]) else .isFalse (by intro hc; injection hc; contradiction)
  | .ok _, .error _ => .isFalse (fun hc => Except.noConfusion hc)
  | .error _, .ok _ => .isFalse (fun hc => Except.noConfusion hc)
  | .error e, .error f =>
    if h : e = f then .isTrue (by rw [h]) else .isFalse (by intro hc; injection hc; contradiction)

/-- The OPRF client/server round trip on bytes:
`Finalize(x, Unblind(r, Evaluate(k, Blind(x, blind).α)))`. -/
def roundtripOut (x blind k : List ℕ) : Except String (List ℕ) :=
  (oprfB.Blind x blind).bind (fun ra =>
    (oprfB.Evaluate k ra.2).bind (fun beta =>
      (oprfB.Unblind ra.1 beta).bind (fun n => oprfB.Finalize x n)))

/-- The unblinded reference value `Finalize(x, k · hash_to_group(x))`. -/
def directOut (x k : List ℕ) : Except String (List ℕ) :=
  (oprfB.hashToGroup x).bind (fun h0 =>
    match rist.scDecode k with
    | none => .error "invalid private key"
    | some kv => oprfB.Finalize x (rist.encode (rist.ptMul kv h0)))

/-- C3: OPRF test vector A.  For input `x = 00`, the fixed server key and
blind of RFC 9497, `Blind` returns the stated `α`, `Evaluate` the stated
`β`, and `Finalize(x, Unblind(r, β))` the stated 64-byte output. -/
theorem c3_oprf_vector_a :
    oprfB.Blind [0] vecBlind = .ok (vecBlind, vecAlpha) ∧
      oprfB.Evaluate vecKey vecAlpha = .ok vecBeta ∧
      (oprfB.Unblind vecBlind vecBeta).bind (oprfB.Finalize [0]) = .ok vecOut := by
  refine ⟨?_, ?_, ?_⟩
  · decide
  · decide
  · decide

/-- C1 counterexample: with the canonical zero blind `r = 0` (32 zero
bytes), `Blind` succeeds, the whole round trip completes without error, and
its output differs from `Finalize(x, k · hash_to_group(x))` — so the claim,
which quantifies over every canonical 32-byte blind scalar, fails at `r = 0`
(here at `x = 00` with the test key). -/
theorem c1_counterexample_zero_blind :
    roundtripOut [0] (List.replicate 32 0) vecKey ≠ directOut [0] vecKey ∧
      isOk (roundtripOut [0] (List.replicate 32 0) vecKey) = true := by
  refine ⟨?_, ?_⟩
  · decide
  · decide

/-- C7: failure modes of the hashing layer as implemented.
`expandMessageXMD(msg, dst, L)` fails iff `ceil(L/64) > 255`, i.e. iff
`L > 255·64 = 16320` — the `len(dst) > 255` condition claimed by the spec is
never checked (the DST length byte wraps), as the concrete success at a
256-byte DST shows.  `Finalize(x, N)` fails iff `N` is not 32 bytes — it
never fails for long `x`; `uint16(len(x))` silently truncates, as the
concrete success at a 65536-byte input shows. -/
theorem c7_hashing_failure_modes :
    (∀ (msg dst : List ℕ) (len : ℕ),
        isOk (oprfB.expandMessageXMD msg dst len) = true ↔ len ≤ 16320) ∧
      (∀ x n : List ℕ, isOk (oprfB.Finalize x n) = true ↔ n.length = 32) ∧
      isOk (oprfB.expandMessageXMD [] (List.replicate 256 0) 64) = true ∧
      isOk (oprfB.Finalize (List.replicate 65536 0) (List.replicate 32 0)) = true := by
  have hx : ∀ (msg dst : List ℕ) (len : ℕ),
      isOk (oprfB.expandMessageXMD msg dst len) = true ↔ len ≤ 16320 := by
    intro msg dst len
    simp only [oprfB.expandMessageXMD]
    split
    · simp only [isOk]
      constructor
      · intro h
        exact absurd h (by simp)
      · intro h
        omega
    · simp only [isOk]
      constructor
      · intro _
        omega
      · intro _
        trivial
  have hf : ∀ x n : List ℕ, isOk (oprfB.Finalize x n) = true ↔ n.length = 32 := by
    intro x n
    unfold oprfB.Finalize
    split
    · simp only [isOk]
      constructor
      · intro h
        exact absurd h (by simp)
      · intro h
        omega
    · simp only [isOk]
      constructor
      · intro _
        omega
      · intro _
        trivial
  refine ⟨hx, hf, ?_, ?_⟩
  · rw [hx]
    omega
  · rw [hf]
    simp

/-- C9 counterexample: `toprf.Evaluate` succeeds and returns a `Part` both
for a peer list with a duplicate index and for one containing the index 0 —
it never fails with `InvalidPeers` (no such validation exists in the
source). -/
theorem c9_counterexample :
    isOk (toprfB.Evaluate 1 5 (List.replicate 32 0) [1, 1]) = true ∧
      isOk (toprfB.Evaluate 1 5 (List.replicate 32 0) [0, 2]) = true := by
  refine ⟨?_, ?_⟩
  · decide
  · decide

/-- C9 (amended): `toprf.Evaluate(share, blinded, indexes)` performs no
validation of the peer indexes at all: it succeeds if and only if `blinded`
is a canonical 32-byte element encoding, for every peer list — including
lists with duplicate or zero indexes. -/
theorem c9_evaluate_no_peer_validation (shareIndex shareValue : ℕ)
    (blinded : List ℕ) (indexes : List ℕ) :
    isOk (toprfB.Evaluate shareIndex shareValue blinded indexes) = true ↔
      (blinded.length = 32 ∧ (rist.decode blinded).isSome = true) := by
  unfold toprfB.Evaluate
  split
  · rename_i h
    simp only [isOk]
    constructor
    · intro hc
      exact absurd hc (by simp)
    · intro hc
      exact absurd hc.1 h
  · rename_i h
    have hlen : blinded.length = 32 := by omega
    cases hd : rist.decode blinded
    · simp [isOk, hd, hlen]
    · simp [isOk, hd, hlen]

theorem c9_evaluate_no_peer_validation_witness :
    isOk (toprfB.Evaluate 2 7 vecAlpha [3, 3, 0]) = true :=
  (c9_evaluate_no_peer_validation 2 7 vecAlpha [3, 3, 0]).mpr ⟨by decide, by decide⟩
